import Mathlib

/-!
Verification of the CursorScript language-server core (src/extension.js, server part).

The development shallowly embeds the server's data model and handlers:
statement/expression trees as inductive types, the symbol extractor
`getSymbolsInProgram`, the per-document validation step, the completion /
hover / definition / signature-help / document-symbol handlers, and the
document formatter.  JavaScript strings are modelled as `List Char`,
JavaScript numbers holding non-negative counts as `Nat` (with explicit `Int`
where the source can go negative), and the handful of regular expressions the
server uses are translated into explicit left-to-right scanning functions
with the exact match/advance discipline of `String.prototype.replace` and
`String.prototype.match`.

The auto-generated global catalog (`globalSymbols.ts`, imported by the server
but not part of this repository snapshot) is passed to every handler as an
explicit `catalog` parameter; the server itself only reads it.
-/

namespace CursorVsc

/-- CompletionItemKind values the server actually uses (vscode-languageserver). -/
inductive CompletionItemKind where
  | variableKind
  | constantKind
  | functionKind
  | moduleKind
  | propertyKind
  | classKind
  | textKind
deriving DecidableEq, Repr

/-- SymbolKind values (vscode-languageserver) used by onDocumentSymbol. -/
inductive SymbolKind where
  | variableKind
  | constantKind
  | functionKind
  | moduleKind
  | classKind
deriving DecidableEq, Repr

mutual
/-- Expression shapes of the CursorPP AST that the server inspects.  Only the
constructors the server's `switch (varDecl.value.kind)` mentions are kept
distinct; every other expression kind is `OtherExpr` (the switch has no
default case, so they all behave alike). -/
inductive Expr where
  | NumericLiteral
  | StringLiteral
  | ArrayLiteral
  | ObjectLiteral (properties : List ObjProperty)
  | LambdaExpr (parameters : List String)
  | IdentifierE (symbol : String)
  | CallExpr
  | OtherExpr

/-- A key/value entry of an object literal (`Property` in the CursorPP AST);
the server only reads `key`. -/
inductive ObjProperty where
  | mk (key : String) (value : Option Expr)
end

/-- The key of an object-literal property. -/
def ObjProperty.key : ObjProperty → String
  | .mk k _ => k

/-- Statements of the CursorPP AST as the server's traversal distinguishes
them.  `OtherStmt` stands for every statement kind other than the three the
traversal handles specially; it carries the nested statement sequences the
generic `body` / `thenBranch` / `elseBranch` checks read.  A statement kind
that lacks one of those slots is modelled with an empty list there, which is
observationally identical for the traversal (iterating a missing slot and an
empty one both contribute nothing). -/
inductive Stmt where
  | VarDeclaration (constant : Bool) (identifier : String) (value : Option Expr)
      (line column : Nat)
  | FunctionDeclaration (name : String) (parameters : List String)
      (body : List Stmt) (line column : Nat)
  | ImportDeclaration (specifiers : List String) (source : String)
      (line column : Nat)
  | OtherStmt (body thenBranch elseBranch : List Stmt)

/-- A parsed program: the root node with its ordered top-level statements. -/
structure Program where
  body : List Stmt

/-- `SymbolMember` of the server: one member of a symbol (object property or
catalog namespace member). -/
structure SymbolMember where
  name : String
  kind : CompletionItemKind
  detail : String
  docs : Option String := none
  insertText : Option String := none
deriving DecidableEq, Repr

/-- `SymbolInfo` of the server.  `docs` models the optional `documentation`
field.  `line` and `column` are always present (they are non-optional in the
TypeScript interface). -/
structure SymbolInfo where
  name : String
  kind : CompletionItemKind
  detail : String
  docs : Option String := none
  insertText : Option String := none
  line : Nat
  column : Nat
  members : Option (List SymbolMember) := none
deriving DecidableEq, Repr

/-- The `typeHint` string built for a VarDeclaration: `"constant"` or
`"variable"` plus the suffix chosen by the `switch` on the initializer kind. -/
def typeHint (constant : Bool) (value : Option Expr) : String :=
  let base := if constant then "constant" else "variable"
  match value with
  | some .NumericLiteral => base ++ ": number"
  | some .StringLiteral => base ++ ": string"
  | some .ArrayLiteral => base ++ ": array"
  | some (.ObjectLiteral _) => base ++ ": object"
  | some (.LambdaExpr ps) => base ++ ": fn(" ++ String.intercalate ", " ps ++ ")"
  | some (.IdentifierE id) =>
      if id = "true" ∨ id = "false" then base ++ ": boolean"
      else if id = "null" then base ++ ": null"
      else base
  | some .CallExpr => base ++ ": (result of call)"
  | some .OtherExpr => base
  | none => base

/-- The members collected for a VarDeclaration: one `Property` member per key
of an object-literal initializer (one level only), nothing otherwise. -/
def varMembers (identifier : String) (value : Option Expr) : List SymbolMember :=
  match value with
  | some (.ObjectLiteral props) =>
      props.map fun p =>
        { name := p.key, kind := .propertyKind,
          detail := "(property of " ++ identifier ++ ")" }
  | _ => []

/-- The body of `getSymbolsInProgram`'s `traverse`: walk a statement list,
emitting symbols in pre-order.  A `FunctionDeclaration` emits its Function
symbol, then one parameter symbol per parameter at the same position, then
recurses into its body exactly once (the generic nested-sequence rule below
explicitly excludes `FunctionDeclaration`, mirroring the
`stmt.kind !== "FunctionDeclaration"` guard in the source). -/
def traverse : List Stmt → List SymbolInfo
  | [] => []
  | .VarDeclaration c id v l col :: rest =>
      { name := id,
        kind := if c then CompletionItemKind.constantKind else CompletionItemKind.variableKind,
        detail := "(" ++ typeHint c v ++ ")",
        line := l, column := col,
        members := if (varMembers id v).length > 0 then some (varMembers id v) else none }
        :: traverse rest
  | .FunctionDeclaration n ps b l col :: rest =>
      ({ name := n, kind := CompletionItemKind.functionKind,
         detail := "fn " ++ n ++ "(" ++ String.intercalate ", " ps ++ ")",
         line := l, column := col } : SymbolInfo)
        :: ((ps.map fun p =>
              ({ name := p, kind := CompletionItemKind.variableKind,
                 detail := "(parameter of " ++ n ++ ")",
                 line := l, column := col } : SymbolInfo))
            ++ traverse b ++ traverse rest)
  | .ImportDeclaration specs src l col :: rest =>
      (specs.map fun s =>
        ({ name := s, kind := CompletionItemKind.moduleKind,
           detail := "(imported from \"" ++ src ++ "\")",
           line := l, column := col } : SymbolInfo))
        ++ traverse rest
  | .OtherStmt b t e :: rest =>
      traverse b ++ traverse t ++ traverse e ++ traverse rest
termination_by l => sizeOf l

/-- `getSymbolsInProgram`: the flat, ordered local-symbol list of a program. -/
def getSymbolsInProgram (program : Program) : List SymbolInfo :=
  traverse program.body

/-- One outline entry produced by onDocumentSymbol. -/
structure DocumentSymbol where
  name : String
  kind : SymbolKind
  startLine : Nat
  startChar : Nat
  endLine : Nat
  endChar : Nat
  detail : String
deriving DecidableEq, Repr

/-- The CompletionItemKind → SymbolKind mapping of onDocumentSymbol. -/
def toSymbolKind (k : CompletionItemKind) : SymbolKind :=
  if k = CompletionItemKind.functionKind then SymbolKind.functionKind
  else if k = CompletionItemKind.constantKind then SymbolKind.constantKind
  else if k = CompletionItemKind.moduleKind then SymbolKind.moduleKind
  else if k = CompletionItemKind.classKind then SymbolKind.classKind
  else SymbolKind.variableKind

/-- `onDocumentSymbol`: no cached program → empty outline; otherwise one
entry per extracted symbol.  The source's `.filter (s.line !== undefined &&
s.column !== undefined)` is identically true here because the TypeScript
interface declares both fields as non-optional, so it is dropped. -/
def onDocumentSymbol (cache : Option Program) : List DocumentSymbol :=
  match cache with
  | none => []
  | some program =>
      (getSymbolsInProgram program).map fun s =>
        { name := s.name, kind := toSymbolKind s.kind,
          startLine := s.line - 1, startChar := s.column - 1,
          endLine := s.line - 1, endChar := (s.column - 1) + s.name.length,
          detail := s.detail }

/-- The claim-side count: declared variables/constants, function
declarations, parameters and import specifiers, counted recursively with
each nested statement sequence visited exactly once. -/
def declCount : List Stmt → Nat
  | [] => 0
  | .VarDeclaration _ _ _ _ _ :: rest => 1 + declCount rest
  | .FunctionDeclaration _ ps b _ _ :: rest => 1 + ps.length + declCount b + declCount rest
  | .ImportDeclaration specs _ _ _ :: rest => specs.length + declCount rest
  | .OtherStmt b t e :: rest => declCount b + declCount t + declCount e + declCount rest
termination_by l => sizeOf l

theorem traverse_length (l : List Stmt) : (traverse l).length = declCount l := by
  induction l using traverse.induct with
  | case1 => simp [traverse, declCount]
  | case2 c id v ln col rest ih => simp [traverse, declCount, ih]; omega
  | case3 n ps b ln col rest ih1 ih2 => simp [traverse, declCount, ih1, ih2]; omega
  | case4 specs src ln col rest ih => simp [traverse, declCount, ih]
  | case5 b t e rest ih1 ih2 ih3 ih4 =>
      simp [traverse, declCount, ih1, ih2, ih3, ih4]; omega

/-- C5: for every cached successfully-parsed Program, the outline
(DocumentSymbols) list has exactly one entry per declared variable or
constant, per function declaration, per function parameter, and per import
specifier, counted recursively with each nested statement sequence (function
body, body, thenBranch, elseBranch) visited exactly once — `declCount`
counts every nested sequence exactly once and in particular never counts a
function body a second time through the generic nested-sequence rule. -/
theorem claim_C5_outline_count (p : Program) :
    (onDocumentSymbol (some p)).length = declCount p.body := by
  simp [onDocumentSymbol, getSymbolsInProgram, traverse_length]

/-- The program `let x = \x7ba: 1, b: 2\x7d;` as parsed by the CursorPP parser. -/
def progC9 : Program :=
  ⟨[Stmt.VarDeclaration false "x"
      (some (Expr.ObjectLiteral [ObjProperty.mk "a" (some Expr.NumericLiteral),
                                 ObjProperty.mk "b" (some Expr.NumericLiteral)]))
      1 5]⟩

/-- C9: extracting symbols from `let x = \x7ba: 1, b: 2\x7d;` yields exactly one
Variable symbol `x` whose members are exactly the two Property members `a`
and `b` in key order; and in general a variable with an object-literal
initializer gets exactly one Property member per top-level key (in key
order), regardless of the shape of the values — keys of nested object values
are never flattened into the member list. -/
theorem claim_C9_object_members :
    (getSymbolsInProgram progC9 =
      [{ name := "x", kind := CompletionItemKind.variableKind,
         detail := "(variable: object)", line := 1, column := 5,
         members := some
           [⟨"a", CompletionItemKind.propertyKind, "(property of x)", none, none⟩,
            ⟨"b", CompletionItemKind.propertyKind, "(property of x)", none, none⟩] }])
    ∧ ∀ (c : Bool) (id : String) (props : List ObjProperty) (l col : Nat),
        traverse [Stmt.VarDeclaration c id (some (Expr.ObjectLiteral props)) l col] =
          [{ name := id,
             kind := if c then CompletionItemKind.constantKind else CompletionItemKind.variableKind,
             detail := "(" ++ typeHint c (some (Expr.ObjectLiteral props)) ++ ")",
             line := l, column := col,
             members := if props.isEmpty then none
               else some (props.map fun p =>
                 ⟨p.key, CompletionItemKind.propertyKind,
                   "(property of " ++ id ++ ")", none, none⟩) }] := by
  constructor
  · simp [getSymbolsInProgram, progC9, traverse, varMembers, typeHint, ObjProperty.key]
  · intro c id props l col
    simp only [traverse, varMembers, List.length_map]
    cases props with
    | nil => simp
    | cons p ps => simp

/-! ## The document formatter (onDocumentFormatting) -/

/-- The JavaScript `\s` character class (also the `String.prototype.trim`
whitespace set). -/
def isJsWhite (c : Char) : Bool :=
  c = ' ' || c = '\t' || c = '\n' || c = '\r' || c = '\x0b' || c = '\x0c' ||
  c = '\u00A0' || c = '\u1680' || (0x2000 ≤ c.toNat && c.toNat ≤ 0x200A) ||
  c = '\u2028' || c = '\u2029' || c = '\u202F' || c = '\u205F' ||
  c = '\u3000' || c = '\uFEFF'

/-- JavaScript `String.prototype.trim`. -/
def jsTrim (s : List Char) : List Char :=
  ((s.dropWhile isJsWhite).reverse.dropWhile isJsWhite).reverse

/-- The single textual pass `text.replace(/\x7b\s*([^\s}])/g, "\x7b\n$1")`,
written as a one-character-per-step scan.  The second argument is `none`
while scanning for a `\x7b`, and `some pend` (whitespace seen so far, reversed)
after a `\x7b` while looking for the `[^\s}]` character.  On a match the
whitespace is dropped and `"\n"` plus the matched character are emitted and
scanning resumes after it; when the lookahead hits `\x7d` or the end of input
the attempt fails, the whitespace is emitted unchanged and scanning resumes
at the character after the `\x7b` (no character inside the failed window can
start a new match except the final `\x7d`-or-other character, which is handled
in place). -/
def braceOpenPass : List Char → Option (List Char) → List Char
  | [], none => []
  | [], some pend => pend.reverse
  | c :: rest, none =>
      if c = '{' then '{' :: braceOpenPass rest (some [])
      else c :: braceOpenPass rest none
  | c :: rest, some pend =>
      if isJsWhite c then braceOpenPass rest (some (c :: pend))
      else if c = '}' then pend.reverse ++ '}' :: braceOpenPass rest none
      else '\n' :: c :: braceOpenPass rest none

/-- The single textual pass `text.replace(/([^\s{])\s*\}/g, "$1\n}")`, as a
one-character-per-step scan.  The state `some (st, pend)` records the
candidate `[^\s{]` starter character and the reversed whitespace seen after
it.  On `\x7d` the match succeeds (`$1\n}` emitted); on any other non-space
character the attempt fails, the starter and its whitespace are emitted
unchanged, and that character is reconsidered: a `\x7b` or whitespace cannot
start a match, anything else becomes the new candidate starter. -/
def braceClosePass : List Char → Option (Char × List Char) → List Char
  | [], none => []
  | [], some (st, pend) => st :: pend.reverse
  | c :: rest, none =>
      if !isJsWhite c && c ≠ '{' then braceClosePass rest (some (c, []))
      else c :: braceClosePass rest none
  | c :: rest, some (st, pend) =>
      if isJsWhite c then braceClosePass rest (some (st, c :: pend))
      else if c = '}' then st :: '\n' :: '}' :: braceClosePass rest none
      else if c = '{' then st :: pend.reverse ++ '{' :: braceClosePass rest none
      else st :: pend.reverse ++ braceClosePass rest (some (c, []))

/-- `text.split(/\r?\n/)`. -/
def splitLinesJS : List Char → List (List Char)
  | [] => [[]]
  | '\r' :: '\n' :: rest => [] :: splitLinesJS rest
  | '\n' :: rest => [] :: splitLinesJS rest
  | c :: rest =>
    match splitLinesJS rest with
    | [] => [[c]]
    | g :: gs => (c :: g) :: gs

/-- `line.replace(/\s*(==|!=|<=|>=|=)\s*/g, " $1 ")` as a
one-character-per-step scan.  `pend` buffers whitespace that may belong to a
match's leading `\s*` (re-emitted unchanged if no operator follows);
`dropWs` is set right after an operator was replaced, while its trailing
`\s*` is being consumed. -/
def polishOpsGo : List Char → List Char → Bool → List Char
  | [], pend, _ => pend.reverse
  | '=' :: '=' :: rest, _, _ => ' ' :: '=' :: '=' :: ' ' :: polishOpsGo rest [] true
  | '!' :: '=' :: rest, _, _ => ' ' :: '!' :: '=' :: ' ' :: polishOpsGo rest [] true
  | '<' :: '=' :: rest, _, _ => ' ' :: '<' :: '=' :: ' ' :: polishOpsGo rest [] true
  | '>' :: '=' :: rest, _, _ => ' ' :: '>' :: '=' :: ' ' :: polishOpsGo rest [] true
  | '=' :: rest, _, _ => ' ' :: '=' :: ' ' :: polishOpsGo rest [] true
  | c :: rest, pend, dropWs =>
      if isJsWhite c then
        if dropWs then polishOpsGo rest [] true
        else polishOpsGo rest (c :: pend) false
      else pend.reverse ++ c :: polishOpsGo rest [] false

/-- `line.replace(/\s*,\s*/g, ", ")` (same scanning discipline). -/
def polishCommasGo : List Char → List Char → Bool → List Char
  | [], pend, _ => pend.reverse
  | ',' :: rest, _, _ => ',' :: ' ' :: polishCommasGo rest [] true
  | c :: rest, pend, dropWs =>
      if isJsWhite c then
        if dropWs then polishCommasGo rest [] true
        else polishCommasGo rest (c :: pend) false
      else pend.reverse ++ c :: polishCommasGo rest [] false

/-- `line.replace(/\s*:\s*/g, ": ")` (same scanning discipline). -/
def polishColonsGo : List Char → List Char → Bool → List Char
  | [], pend, _ => pend.reverse
  | ':' :: rest, _, _ => ':' :: ' ' :: polishColonsGo rest [] true
  | c :: rest, pend, dropWs =>
      if isJsWhite c then
        if dropWs then polishColonsGo rest [] true
        else polishColonsGo rest (c :: pend) false
      else pend.reverse ++ c :: polishColonsGo rest [] false

/-- `line.replace(/\)\s*\{/g, ") {")` as a one-character-per-step scan;
`some pend` means a `)` was seen and `pend` (reversed) is the whitespace
after it. -/
def polishParenGo : List Char → Option (List Char) → List Char
  | [], none => []
  | [], some pend => ')' :: pend.reverse
  | ')' :: rest, none => polishParenGo rest (some [])
  | c :: rest, none => c :: polishParenGo rest none
  | c :: rest, some pend =>
      if isJsWhite c then polishParenGo rest (some (c :: pend))
      else if c = '{' then ')' :: ' ' :: '{' :: polishParenGo rest none
      else if c = ')' then ')' :: pend.reverse ++ polishParenGo rest (some [])
      else ')' :: pend.reverse ++ c :: polishParenGo rest none

/-- The word-character class of the JavaScript `\b` assertion. -/
def isWordChar (c : Char) : Bool :=
  ('a' ≤ c && c ≤ 'z') || ('A' ≤ c && c ≤ 'Z') || ('0' ≤ c && c ≤ '9') || c = '_'

/-- `line.replace(/\b(if|while|fn|import)\s?\(/g, "$1 (")`.  The Boolean
argument records whether the previous character is a word character (so `\b`
holds exactly when it is `false` and the current character is a word
character; every keyword starts with one).  On a failed keyword attempt the
scan advances one character, exactly like the regex engine. -/
def polishKwGo : List Char → Bool → List Char
  | [], _ => []
  | 'i' :: 'f' :: '(' :: rest, false =>
      'i' :: 'f' :: ' ' :: '(' :: polishKwGo rest false
  | 'i' :: 'f' :: c :: '(' :: rest, false =>
      if isJsWhite c then 'i' :: 'f' :: ' ' :: '(' :: polishKwGo rest false
      else 'i' :: polishKwGo ('f' :: c :: '(' :: rest) true
  | 'w' :: 'h' :: 'i' :: 'l' :: 'e' :: '(' :: rest, false =>
      'w' :: 'h' :: 'i' :: 'l' :: 'e' :: ' ' :: '(' :: polishKwGo rest false
  | 'w' :: 'h' :: 'i' :: 'l' :: 'e' :: c :: '(' :: rest, false =>
      if isJsWhite c then 'w' :: 'h' :: 'i' :: 'l' :: 'e' :: ' ' :: '(' :: polishKwGo rest false
      else 'w' :: polishKwGo ('h' :: 'i' :: 'l' :: 'e' :: c :: '(' :: rest) true
  | 'f' :: 'n' :: '(' :: rest, false =>
      'f' :: 'n' :: ' ' :: '(' :: polishKwGo rest false
  | 'f' :: 'n' :: c :: '(' :: rest, false =>
      if isJsWhite c then 'f' :: 'n' :: ' ' :: '(' :: polishKwGo rest false
      else 'f' :: polishKwGo ('n' :: c :: '(' :: rest) true
  | 'i' :: 'm' :: 'p' :: 'o' :: 'r' :: 't' :: '(' :: rest, false =>
      'i' :: 'm' :: 'p' :: 'o' :: 'r' :: 't' :: ' ' :: '(' :: polishKwGo rest false
  | 'i' :: 'm' :: 'p' :: 'o' :: 'r' :: 't' :: c :: '(' :: rest, false =>
      if isJsWhite c then 'i' :: 'm' :: 'p' :: 'o' :: 'r' :: 't' :: ' ' :: '(' :: polishKwGo rest false
      else 'i' :: polishKwGo ('m' :: 'p' :: 'o' :: 'r' :: 't' :: c :: '(' :: rest) true
  | c :: rest, _ => c :: polishKwGo rest (isWordChar c)

/-- Does the line start with the given character (`line.startsWith(c)`)? -/
def startsWithCh (line : List Char) (c : Char) : Bool :=
  line.head? = some c

/-- Does the line end with the given character (`line.endsWith(c)`)? -/
def endsWithCh (line : List Char) (c : Char) : Bool :=
  line.getLast? = some c

/-- `line.startsWith(pre)` for a multi-character prefix. -/
def startsWithStr (line : List Char) (pre : List Char) : Bool :=
  pre.isPrefixOf line

/-- The five `replace` calls of the "Polish" step followed by the final
`.trim()`, in source order. -/
def polishLine (line : List Char) : List Char :=
  jsTrim (polishKwGo (polishParenGo
    (polishColonsGo (polishCommasGo (polishOpsGo line [] false) [] false) [] false)
    none) false)

/-- The per-line loop of onDocumentFormatting: blank-line collapsing,
de-indent before a line starting with `\x7d` or `]`, semicolon enforcement on
the trimmed line, the polish step, indentation emission, and indent increase
after a (polished) line ending in `\x7b` or `[`.  `acc` holds the emitted lines
in reverse. -/
def formatLoop (indentSize : Nat) :
    List (List Char) → Nat → List (List Char) → List (List Char)
  | [], _, acc => acc.reverse
  | raw :: restLines, indentLevel, acc =>
    let line := jsTrim raw
    if line.length = 0 then
      formatLoop indentSize restLines indentLevel
        (if acc.length > 0 ∧ acc.head? ≠ some [] then [] :: acc else acc)
    else
      let indentLevel1 :=
        if startsWithCh line '}' || startsWithCh line ']' then indentLevel - 1
        else indentLevel
      let isBlockStart := endsWithCh line '{' || endsWithCh line '['
      let isBlockEnd :=
        startsWithCh line '}' || startsWithCh line ']' || endsWithCh line '}'
      let isControlFlow :=
        startsWithStr line ['i', 'f'] || startsWithStr line ['w', 'h', 'i', 'l', 'e'] ||
        startsWithStr line ['e', 'l', 's', 'e']
      let isFunction := startsWithStr line ['f', 'n', ' ']
      let isComment := startsWithStr line ['/', '/']
      let isProperty :=
        line.contains ':' && !startsWithStr line ['i', 'm', 'p', 'o', 'r', 't']
      let endsWithComma := endsWithCh line ','
      let line2 :=
        if !isBlockStart && !isBlockEnd && !isControlFlow && !isFunction &&
            !isComment && !isProperty && !endsWithComma && !endsWithCh line ';' then
          line ++ [';']
        else line
      let line3 := polishLine line2
      let indentLevel2 :=
        if endsWithCh line3 '{' || endsWithCh line3 '[' then indentLevel1 + 1
        else indentLevel1
      formatLoop indentSize restLines indentLevel2
        ((List.replicate (indentLevel1 * indentSize) ' ' ++ line3) :: acc)

/-- `onDocumentFormatting` as a pure text → text function: brace expansion,
brace closing, `\r?\n` split, the per-line loop with
`indentSize = params.options.tabSize || 4`, and the final `join("\n")`. -/
def formatText (tabSize : Nat) (text : List Char) : List Char :=
  let expanded := braceClosePass (braceOpenPass text none) none
  let lines := splitLinesJS expanded
  let indentSize := if tabSize = 0 then 4 else tabSize
  List.intercalate ['\n'] (formatLoop indentSize lines 0 [])

/-- C8: formatting the text `if(x)\x7bprint(x)\x7d` with tabSize 4 yields exactly
the three lines `if (x) \x7b`, four spaces followed by `print(x);`, and `\x7d`. -/
theorem claim_C8_format_example :
    formatText 4 ("if(x)\x7bprint(x)\x7d").data =
      ("if (x) \x7b\n    print(x);\n\x7d").data := by
  decide

/-- C1: the formatter is NOT idempotent, refuting the claim (and the spec's
required property) at the input `fn ,x` with tabSize 4.  The first pass
leaves the line alone (it starts with `fn ` so no semicolon is appended) but
the comma polish rewrites `fn ,x` to `fn, x`, which no longer starts with
`fn `, so the second pass appends a semicolon: `Format(Format(t)) ≠
Format(t)`. -/
theorem claim_C1_formatter_not_idempotent :
    formatText 4 (formatText 4 ("fn ,x").data) ≠ formatText 4 ("fn ,x").data ∧
    formatText 4 ("fn ,x").data = ("fn, x").data ∧
    formatText 4 ("fn, x").data = ("fn, x;").data := by
  decide

/-! ## Validation and diagnostics (validateTextDocument) -/

/-- Diagnostic severities of the language-server protocol. -/
inductive DiagnosticSeverity where
  | error
  | warning
  | information
  | hint
deriving DecidableEq, Repr

/-- A published diagnostic.  Line/character are `Int` because the source
computes `parseInt(...) - 1`, which JavaScript lets go negative. -/
structure Diagnostic where
  severity : DiagnosticSeverity
  startLine : Int
  startChar : Int
  endLine : Int
  endChar : Int
  message : String
  source : String
deriving DecidableEq, Repr

/-- Outcome of the external parser collaborator `parser.produceAST`: a
Program, or a thrown error whose string form is `msg`. -/
inductive ParseResult where
  | ok (program : Program)
  | err (msg : String)

/-- `parseInt` on a non-empty run of decimal digits. -/
def digitsVal (ds : List Char) : Nat :=
  ds.foldl (fun a d => a * 10 + (d.toNat - 48)) 0

/-- `err.toString().match(/:(\d+):(\d+)/)`: the leftmost position where a
colon is followed by one or more digits, a colon, and one or more digits;
returns the two numeric captures.  On a failed attempt the scan advances one
character, and only a `:` can start a match. -/
def findColonPair : List Char → Option (Nat × Nat)
  | [] => none
  | ':' :: rest =>
      let d1 := rest.takeWhile Char.isDigit
      if d1.isEmpty then findColonPair rest
      else
        match rest.drop d1.length with
        | ':' :: rest2 =>
            let d2 := rest2.takeWhile Char.isDigit
            if d2.isEmpty then findColonPair rest
            else some (digitsVal d1, digitsVal d2)
        | _ => findColonPair rest
  | _ :: rest => findColonPair rest

/-- `validateTextDocument`, given the parser's outcome on the current text
and the document's current AST-cache entry; returns the new cache entry and
the published diagnostic set.  On success the cache is replaced and the empty
set is published; on failure the cache is untouched and, if the failure
message carries a `:line:column` position, exactly one Error diagnostic is
published at the 0-based position. -/
def validateTextDocument (result : ParseResult) (cache : Option Program) :
    Option Program × List Diagnostic :=
  match result with
  | .ok program => (some program, [])
  | .err msg =>
    match findColonPair msg.data with
    | some (l, c) =>
        (cache,
          [{ severity := DiagnosticSeverity.error,
             startLine := (l : Int) - 1, startChar := (c : Int) - 1,
             endLine := (l : Int) - 1, endChar := ((c : Int) - 1) + 1,
             message := msg, source := "CursorScript" }])
    | none => (cache, [])

/-- C2: on a parse failure whose message contains `:line:column`, the cache
entry is left unchanged (the prior good Program, if any, is retained) and
exactly one Error-severity diagnostic is published at that position (0-based
`line − 1` / `column − 1`, one character wide); on a successful parse the
cache entry is replaced by the new Program and the empty diagnostic set is
published. -/
theorem claim_C2_parse_failure_behavior (msg : String) (l c : Nat)
    (cache : Option Program) (p : Program)
    (h : findColonPair msg.data = some (l, c)) :
    validateTextDocument (ParseResult.err msg) cache =
      (cache,
        [{ severity := DiagnosticSeverity.error,
           startLine := (l : Int) - 1, startChar := (c : Int) - 1,
           endLine := (l : Int) - 1, endChar := ((c : Int) - 1) + 1,
           message := msg, source := "CursorScript" }])
    ∧ validateTextDocument (ParseResult.ok p) cache = (some p, []) := by
  constructor
  · simp [validateTextDocument, h]
  · rfl

/-- Witness for C2 at the failure message `Parser Error :3:5 unexpected
token` and at a successful parse of the empty program. -/
theorem claim_C2_witness :
    validateTextDocument (ParseResult.err "Parser Error :3:5 unexpected token")
        (some ⟨[]⟩) =
      (some ⟨[]⟩,
        [{ severity := DiagnosticSeverity.error,
           startLine := 2, startChar := 4, endLine := 2, endChar := 5,
           message := "Parser Error :3:5 unexpected token",
           source := "CursorScript" }])
    ∧ validateTextDocument (ParseResult.ok ⟨[]⟩) none = (some ⟨[]⟩, []) := by
  have h := claim_C2_parse_failure_behavior "Parser Error :3:5 unexpected token"
    3 5 (some ⟨[]⟩) ⟨[]⟩ (by decide)
  exact ⟨by rw [h.1]; norm_num, h.2⟩

/-! ## Documents, positions and offsets -/

/-- A protocol position: 0-based line and character. -/
structure Position where
  line : Nat
  character : Nat
deriving DecidableEq, Repr

/-- Offsets at which lines start, after position 0: one after every `\n`,
`\r\n` pair, or lone `\r` (the line-break set of the
vscode-languageserver-textdocument collaborator backing `document.offsetAt`). -/
def lineOffsetsAux : List Char → Nat → List Nat
  | [], _ => []
  | '\r' :: '\n' :: rest, i => (i + 2) :: lineOffsetsAux rest (i + 2)
  | '\r' :: rest, i => (i + 1) :: lineOffsetsAux rest (i + 1)
  | '\n' :: rest, i => (i + 1) :: lineOffsetsAux rest (i + 1)
  | _ :: rest, i => lineOffsetsAux rest (i + 1)

/-- All line-start offsets of a text (position 0 always starts a line). -/
def getLineOffsets (text : List Char) : List Nat :=
  0 :: lineOffsetsAux text 0

/-- `document.offsetAt(position)` of vscode-languageserver-textdocument:
clamps the line into the document and the character into the line. -/
def offsetAt (text : List Char) (pos : Position) : Nat :=
  let lineOffsets := getLineOffsets text
  if pos.line ≥ lineOffsets.length then text.length
  else
    let lineOffset := lineOffsets.getD pos.line 0
    let nextLineOffset :=
      if pos.line + 1 < lineOffsets.length then lineOffsets.getD (pos.line + 1) 0
      else text.length
    max (min (lineOffset + pos.character) nextLineOffset) lineOffset

/-- The identifier character class `[a-zA-Z0-9_$]` used by the server's word
and dot regexes. -/
def isIdentChar (c : Char) : Bool :=
  ('a' ≤ c && c ≤ 'z') || ('A' ≤ c && c ≤ 'Z') || ('0' ≤ c && c ≤ '9') ||
  c = '_' || c = '$'

/-- `s.includes("//")`. -/
def containsSlashSlash : List Char → Bool
  | '/' :: '/' :: _ => true
  | _ :: rest => containsSlashSlash rest
  | [] => false

/-- `textBefore.match(/([a-zA-Z0-9_$]+)\.$/)`: if the text ends with a dot
immediately preceded by a non-empty identifier run, return that (maximal)
run. -/
def dotMatch (s : List Char) : Option (List Char) :=
  match s.reverse with
  | '.' :: rest =>
      let run := rest.takeWhile isIdentChar
      if run.isEmpty then none else some run.reverse
  | _ => none

/-- A completion item as the server builds it (`data` is just a copy of the
symbol and is not modelled; `insertTextFormat` is 2 — snippet — exactly when
`insertText` is set). -/
structure CompletionItem where
  label : String
  kind : CompletionItemKind
  detail : String
  docs : Option String := none
  insertText : Option String := none
  insertTextFormat : Nat
deriving DecidableEq, Repr

/-- The SymbolInfo → CompletionItem mapping of the general completion case. -/
def toItem (s : SymbolInfo) : CompletionItem :=
  { label := s.name, kind := s.kind, detail := s.detail, docs := s.docs,
    insertText := s.insertText,
    insertTextFormat := if s.insertText.isSome then 2 else 1 }

/-- The SymbolMember → CompletionItem mapping of the member-completion case. -/
def memberToItem (m : SymbolMember) : CompletionItem :=
  { label := m.name, kind := m.kind, detail := m.detail, docs := m.docs,
    insertText := m.insertText,
    insertTextFormat := if m.insertText.isSome then 2 else 1 }

/-- One `uniqueSymbols.set(s.name, s)` step on a JavaScript `Map` represented
as its insertion-ordered entry list: an existing key keeps its position but
takes the new value, a new key is appended. -/
def mapSet (m : List SymbolInfo) (s : SymbolInfo) : List SymbolInfo :=
  if m.any (fun t => t.name == s.name) then
    m.map fun t => if t.name == s.name then s else t
  else m ++ [s]

/-- `allSymbols.forEach(s => uniqueSymbols.set(s.name, s))` followed by
`Array.from(uniqueSymbols.values())`. -/
def dedupByName (l : List SymbolInfo) : List SymbolInfo :=
  l.foldl mapSet []

/-- The local symbols available to a request: those of the cached Program,
or none without one (`program ? getSymbolsInProgram(program) : []`). -/
def localSymbolsOf (cache : Option Program) : List SymbolInfo :=
  match cache with
  | some program => getSymbolsInProgram program
  | none => []

/-- The general (non-member) completion case: line-filtered locals appended
after the full catalog, deduplicated by name via the Map, then mapped to
items. -/
def completionGeneral (catalog localSymbols : List SymbolInfo) (pos : Position) :
    List CompletionItem :=
  let currentLine := pos.line + 1
  let availableSymbols := localSymbols.filter fun s => s.line < currentLine
  let allSymbols := catalog ++ availableSymbols
  (dedupByName allSymbols).map toItem

/-- `connection.onCompletion`: empty inside a line comment; the member list
of the resolved symbol right after `<identifier>.` when it has one (this
fully overrides the general case); otherwise the general case. -/
def onCompletion (catalog : List SymbolInfo) (cache : Option Program)
    (text : List Char) (pos : Position) : List CompletionItem :=
  let offset := offsetAt text pos
  let lineStartOffset := offsetAt text ⟨pos.line, 0⟩
  let lineTextBeforeCursor := (text.take offset).drop lineStartOffset
  if containsSlashSlash lineTextBeforeCursor then []
  else
    let localSymbols := localSymbolsOf cache
    let textBefore := text.take offset
    match dotMatch textBefore with
    | some objChars =>
        let objectName := String.mk objChars
        match (localSymbols.find? (fun s => s.name == objectName)).orElse
                (fun _ => catalog.find? (fun s => s.name == objectName)) with
        | some symbol =>
            match symbol.members with
            | some ms => ms.map memberToItem
            | none => completionGeneral catalog localSymbols pos
        | none => completionGeneral catalog localSymbols pos
    | none => completionGeneral catalog localSymbols pos

/-! ## The specification-side description of the general completion case
(C3): one entry per unique name, first-occurrence order, later insertion
wins. -/

/-- The distinct names of a list in first-occurrence order. -/
def namesInOrder : List String → List String
  | [] => []
  | n :: rest => n :: (namesInOrder rest).filter fun m => m ≠ n

/-- The last element of `l` carrying the given name — "the later insertion
wins". -/
def lastWithName (l : List SymbolInfo) (n : String) : Option SymbolInfo :=
  l.reverse.find? fun s => s.name == n

/-- Deduplication as the specification words it: one entry per unique name
of `l`, each taken from the last element of `l` with that name. -/
def dedupSpecByName (l : List SymbolInfo) : List SymbolInfo :=
  (namesInOrder (l.map fun s => s.name)).filterMap fun n => lastWithName l n

theorem mem_namesInOrder (n : String) (xs : List String) :
    n ∈ namesInOrder xs ↔ n ∈ xs := by
  induction xs with
  | nil => simp [namesInOrder]
  | cons x rest ih =>
      simp only [namesInOrder, List.mem_cons, List.mem_filter, ih,
        decide_eq_true_eq]
      by_cases hx : n = x <;> simp [hx]

theorem namesInOrder_append_singleton (xs : List String) (n : String) :
    namesInOrder (xs ++ [n]) =
      if n ∈ xs then namesInOrder xs else namesInOrder xs ++ [n] := by
  induction xs with
  | nil => simp [namesInOrder]
  | cons x rest ih =>
      rw [List.cons_append]
      simp only [namesInOrder]
      rw [ih]
      by_cases hmem : n ∈ rest
      · rw [if_pos hmem, if_pos (List.mem_cons_of_mem x hmem)]
      · by_cases hx : n = x
        · subst hx
          rw [if_neg hmem, if_pos (List.mem_cons_self n rest), List.filter_append]
          simp
        · rw [if_neg hmem, if_neg (by simp [hx, hmem]), List.filter_append]
          simp [hx]

theorem lastWithName_append (l : List SymbolInfo) (s : SymbolInfo) (n : String) :
    lastWithName (l ++ [s]) n = if s.name = n then some s else lastWithName l n := by
  by_cases h : s.name = n <;>
    simp [lastWithName, List.reverse_append, List.find?_cons, h]

theorem lastWithName_of_mem (l : List SymbolInfo) (n : String)
    (h : n ∈ l.map fun s => s.name) :
    ∃ t, lastWithName l n = some t ∧ t.name = n := by
  rcases List.mem_map.mp h with ⟨t, ht, rfl⟩
  have hsome : (lastWithName l t.name).isSome := by
    rw [lastWithName, List.find?_isSome]
    exact ⟨t, by simp [ht]⟩
  rcases Option.isSome_iff_exists.mp hsome with ⟨u, hu⟩
  have := List.find?_some hu
  exact ⟨u, hu, by simpa using this⟩

theorem filterMapCongrMem {α β : Type} {f g : α → Option β} :
    ∀ {ns : List α}, (∀ a ∈ ns, f a = g a) → ns.filterMap f = ns.filterMap g := by
  intro ns
  induction ns with
  | nil => simp
  | cons a rest ih =>
      intro h
      rw [List.filterMap_cons, List.filterMap_cons, h a (List.mem_cons_self a rest),
        ih fun b hb => h b (List.mem_cons_of_mem a hb)]

theorem map_name_filterMap_lastWithName (l : List SymbolInfo) :
    ∀ ns : List String, (∀ n ∈ ns, n ∈ l.map fun s => s.name) →
      ((ns.filterMap fun n => lastWithName l n).map fun s => s.name) = ns := by
  intro ns
  induction ns with
  | nil => simp
  | cons n rest ih =>
      intro h
      obtain ⟨t, ht, htn⟩ := lastWithName_of_mem l n (h n (List.mem_cons_self n rest))
      simp only [List.filterMap_cons, ht, List.map_cons, htn,
        ih fun m hm => h m (List.mem_cons_of_mem n hm)]

theorem map_name_dedupSpec (l : List SymbolInfo) :
    ((dedupSpecByName l).map fun s => s.name) =
      namesInOrder (l.map fun s => s.name) := by
  apply map_name_filterMap_lastWithName
  intro n hn
  exact (mem_namesInOrder n _).mp hn

/-- The JavaScript `Map`-based deduplication of the completion handler
computes exactly the specification's description: the unique names in
first-insertion order, each mapped to the last inserted symbol of that
name. -/
theorem dedupByName_eq (l : List SymbolInfo) : dedupByName l = dedupSpecByName l := by
  induction l using List.reverseRecOn with
  | nil => simp [dedupByName, dedupSpecByName, namesInOrder]
  | append_singleton l s ih =>
      have hfold : dedupByName (l ++ [s]) = mapSet (dedupByName l) s := by
        simp [dedupByName, List.foldl_append]
      rw [hfold, ih]
      by_cases hmem : s.name ∈ l.map fun t => t.name
      · have hany : (dedupSpecByName l).any (fun t => t.name == s.name) = true := by
          rw [List.any_eq_true]
          have hm : s.name ∈ (dedupSpecByName l).map fun t => t.name := by
            rw [map_name_dedupSpec]
            exact (mem_namesInOrder _ _).mpr hmem
          rcases List.mem_map.mp hm with ⟨t, ht, htn⟩
          exact ⟨t, ht, by simp [htn]⟩
        rw [mapSet, if_pos hany]
        unfold dedupSpecByName
        rw [List.map_append, List.map_singleton, namesInOrder_append_singleton,
          if_pos hmem, List.map_filterMap]
        apply filterMapCongrMem
        intro n hn
        have hnl : n ∈ l.map fun s => s.name := (mem_namesInOrder _ _).mp hn
        obtain ⟨t, ht, htn⟩ := lastWithName_of_mem l n hnl
        rw [lastWithName_append]
        by_cases hns : s.name = n
        · rw [if_pos hns, ht]
          simp [htn, hns]
        · rw [if_neg hns, ht]
          simp [htn]
          intro h
          exact absurd h.symm hns
      · have hany : (dedupSpecByName l).any (fun t => t.name == s.name) = false := by
          rw [List.any_eq_false]
          intro t ht
          simp only [beq_iff_eq]
          intro heq
          apply hmem
          rw [← heq]
          have : t.name ∈ (dedupSpecByName l).map fun u => u.name :=
            List.mem_map.mpr ⟨t, ht, rfl⟩
          rw [map_name_dedupSpec] at this
          exact (mem_namesInOrder _ _).mp this
        rw [mapSet, if_neg (by simp [hany])]
        unfold dedupSpecByName
        rw [List.map_append, List.map_singleton, namesInOrder_append_singleton,
          if_neg hmem, List.filterMap_append]
        congr 1
        · apply filterMapCongrMem
          intro n hn
          have hnl : n ∈ l.map fun s => s.name := (mem_namesInOrder _ _).mp hn
          rw [lastWithName_append, if_neg]
          intro heq
          exact hmem (heq ▸ hnl)
        · simp [lastWithName_append]

/-- On a list whose names are already distinct, the Map-based deduplication
is the identity. -/
theorem dedupByName_of_nodup (l : List SymbolInfo)
    (h : (l.map fun s => s.name).Nodup) : dedupByName l = l := by
  induction l using List.reverseRecOn with
  | nil => rfl
  | append_singleton l s ih =>
      rw [List.map_append, List.map_singleton] at h
      have h1 : (l.map fun s => s.name).Nodup := (List.nodup_append.mp h).1
      have h2 : s.name ∉ l.map fun s => s.name := by
        intro hmem
        rcases List.nodup_append.mp h with ⟨-, -, hdisj⟩
        exact hdisj hmem (List.mem_singleton_self _)
      have hfold : dedupByName (l ++ [s]) = mapSet (dedupByName l) s := by
        simp [dedupByName, List.foldl_append]
      rw [hfold, ih h1, mapSet, if_neg]
      intro hany
      rcases (by simpa using hany : ∃ t ∈ l, t.name = s.name) with ⟨t, ht, htn⟩
      exact h2 (htn ▸ List.mem_map.mpr ⟨t, ht, rfl⟩)

/-- C3: on a completion request whose line prefix up to the offset contains
no `//` and whose text before the offset does not end in `<identifier>.`,
the returned list is exactly the specification's description of the general
case: one entry per unique name drawn from the full catalog followed by the
local symbols whose declaration line is strictly below the 1-based request
line (`pos.line + 1`, the 1-based line of the offset for any position inside
the document), in first-insertion order with the later insertion winning —
so a local symbol masks a global of the same name. -/
theorem claim_C3_completion_general (catalog : List SymbolInfo)
    (cache : Option Program) (text : List Char) (pos : Position)
    (hcomment : containsSlashSlash ((text.take (offsetAt text pos)).drop
        (offsetAt text ⟨pos.line, 0⟩)) = false)
    (hdot : dotMatch (text.take (offsetAt text pos)) = none) :
    onCompletion catalog cache text pos =
      (dedupSpecByName (catalog ++
        (localSymbolsOf cache).filter fun s => s.line < pos.line + 1)).map toItem := by
  unfold onCompletion
  simp only [hcomment, hdot, Bool.false_eq_true, if_false, completionGeneral,
    dedupByName_eq]

/-- The catalog used by the C3 witness: two entries named `print` (the later
must win) and one named `Window`. -/
def catalogC3 : List SymbolInfo :=
  [{ name := "print", kind := CompletionItemKind.functionKind,
     detail := "fn print(msg)", line := 0, column := 0 },
   { name := "print", kind := CompletionItemKind.functionKind,
     detail := "fn print(value)", line := 0, column := 0 },
   { name := "Window", kind := CompletionItemKind.classKind,
     detail := "(native library)", line := 0, column := 0 }]

/-- Witness for C3: at a concrete comment-free, dot-free request the handler
returns one entry per unique catalog name with the later `print` entry
winning. -/
theorem claim_C3_witness :
    onCompletion catalogC3 none ("let a = 1").data ⟨0, 9⟩ =
      [{ label := "print", kind := CompletionItemKind.functionKind,
         detail := "fn print(value)", insertTextFormat := 1 },
       { label := "Window", kind := CompletionItemKind.classKind,
         detail := "(native library)", insertTextFormat := 1 }] :=
  (claim_C3_completion_general catalogC3 none ("let a = 1").data ⟨0, 9⟩
    (by decide) (by decide)).trans (by decide)

/-- C4: on a completion request outside a comment whose text before the
offset ends in `<identifier>.`, if the identifier resolves — locals first,
then the catalog — to a symbol carrying a member list, the result is exactly
that member list mapped to items and nothing else, for every cursor
position with those properties (in particular independent of the cursor
line). -/
theorem claim_C4_completion_members (catalog : List SymbolInfo)
    (cache : Option Program) (text : List Char) (pos : Position)
    (objChars : List Char) (symbol : SymbolInfo) (ms : List SymbolMember)
    (hcomment : containsSlashSlash ((text.take (offsetAt text pos)).drop
        (offsetAt text ⟨pos.line, 0⟩)) = false)
    (hdot : dotMatch (text.take (offsetAt text pos)) = some objChars)
    (hres : ((localSymbolsOf cache).find?
          (fun s => s.name == String.mk objChars)).orElse
        (fun _ => catalog.find? fun s => s.name == String.mk objChars) =
      some symbol)
    (hmem : symbol.members = some ms) :
    onCompletion catalog cache text pos = ms.map memberToItem := by
  unfold onCompletion
  simp only [hcomment, hdot, hres, hmem, Bool.false_eq_true, if_false]

/-- The `Window` global of the specification's C4 example, with members
`create` and `clear`. -/
def windowSymbol : SymbolInfo :=
  { name := "Window", kind := CompletionItemKind.classKind,
    detail := "(native library)", line := 0, column := 0,
    members := some
      [⟨"create", CompletionItemKind.functionKind,
        "Window.create(width, height, title)", none, none⟩,
       ⟨"clear", CompletionItemKind.functionKind,
        "Window.clear(color)", none, none⟩] }

/-- Witness for C4: completion after `Window.` against a catalog in which
`Window` has members `[create, clear]` returns exactly `[create, clear]`. -/
theorem claim_C4_witness :
    onCompletion [windowSymbol] none ("Window.").data ⟨0, 7⟩ =
      [{ label := "create", kind := CompletionItemKind.functionKind,
         detail := "Window.create(width, height, title)", insertTextFormat := 1 },
       { label := "clear", kind := CompletionItemKind.functionKind,
         detail := "Window.clear(color)", insertTextFormat := 1 }] :=
  (claim_C4_completion_members [windowSymbol] none ("Window.").data ⟨0, 7⟩
    ("Window").data windowSymbol _
    (by decide) (by decide) (by decide) rfl).trans (by decide)

/-! ## Word scanning (the /[a-zA-Z0-9_$]+/g exec loop), hover and definition -/

/-- The maximal identifier runs of a text with their start indices, in
order — the successive matches of `wordRegex.exec(text)`.  The state
`some (st, run)` is the run currently being read (characters reversed). -/
def identRunsGo : List Char → Nat → Option (Nat × List Char) → List (Nat × List Char)
  | [], _, none => []
  | [], _, some (st, run) => [(st, run.reverse)]
  | c :: rest, i, none =>
      if isIdentChar c then identRunsGo rest (i + 1) (some (i, [c]))
      else identRunsGo rest (i + 1) none
  | c :: rest, i, some (st, run) =>
      if isIdentChar c then identRunsGo rest (i + 1) (some (st, c :: run))
      else (st, run.reverse) :: identRunsGo rest (i + 1) none

/-- All maximal identifier runs of a text. -/
def identRuns (text : List Char) : List (Nat × List Char) :=
  identRunsGo text 0 none

/-- `getSymbolAtPosition`: nothing without a cached Program (not even the
catalog is consulted); otherwise whole-document locals first, catalog
second. -/
def getSymbolAtPosition (catalog : List SymbolInfo) (cache : Option Program)
    (word : String) : Option SymbolInfo :=
  match cache with
  | none => none
  | some program =>
      let localSymbols := getSymbolsInProgram program
      (localSymbols.find? (fun s => s.name == word)).orElse
        (fun _ => catalog.find? fun s => s.name == word)

/-- A hover result (the markdown string). -/
structure Hover where
  value : String
deriving DecidableEq, Repr

/-- `connection.onHover`: `null` without a cached Program; otherwise the
exec loop returns the hover of the first (hence only) identifier run whose
inclusive span `[index, index + length]` contains the offset and that
resolves; a containing run that does not resolve lets the loop continue,
which then finds nothing.  JavaScript renders an empty `documentation`
string as absent (falsy), hence the emptiness test. -/
def onHover (catalog : List SymbolInfo) (cache : Option Program)
    (text : List Char) (pos : Position) : Option Hover :=
  match cache with
  | none => none
  | some program =>
      let offset := offsetAt text pos
      (identRuns text).findSome? fun ir =>
        if ir.1 ≤ offset ∧ offset ≤ ir.1 + ir.2.length then
          let word := String.mk ir.2
          let localSymbols := getSymbolsInProgram program
          match (localSymbols.find? (fun s => s.name == word)).orElse
              (fun _ => catalog.find? fun s => s.name == word) with
          | some symbol =>
              some ⟨"**" ++ word ++ "**\n\n" ++ symbol.detail ++
                (match symbol.docs with
                 | some d => if d.isEmpty then "" else "\n\n" ++ d
                 | none => "")⟩
          | none => none
        else none

/-- A definition result: a range in a document. -/
structure Location where
  uri : String
  startLine : Nat
  startChar : Nat
  endLine : Nat
  endChar : Nat
deriving DecidableEq, Repr

/-- `connection.onDefinition`: the exec loop over identifier runs; a
containing run that resolves to a symbol with `line > 0` yields a span at
`(line − 1, column − 1)` of the identifier's length in the same document
(`Math.max(0, · − 1)` is `Nat` saturating subtraction); otherwise the loop
continues and finds nothing. -/
def onDefinition (catalog : List SymbolInfo) (cache : Option Program)
    (uri : String) (text : List Char) (pos : Position) : Option Location :=
  let offset := offsetAt text pos
  (identRuns text).findSome? fun ir =>
    if ir.1 ≤ offset ∧ offset ≤ ir.1 + ir.2.length then
      match getSymbolAtPosition catalog cache (String.mk ir.2) with
      | some symbol =>
          if 0 < symbol.line then
            some { uri := uri,
                   startLine := symbol.line - 1, startChar := symbol.column - 1,
                   endLine := symbol.line - 1,
                   endChar := (symbol.column - 1) + ir.2.length }
          else none
      | none => none
    else none

/-- Separation of identifier runs: an earlier run ends strictly before a
later one starts (there is at least one non-identifier character between
them, because the runs are maximal). -/
def runSep (a b : Nat × List Char) : Prop :=
  a.1 + a.2.length < b.1

theorem identRunsGo_ge (cs : List Char) : ∀ i : Nat,
    (∀ p ∈ identRunsGo cs i none, i ≤ p.1) ∧
    (∀ st rev, ∀ p ∈ identRunsGo cs i (some (st, rev)), p.1 = st ∨ i < p.1) := by
  induction cs with
  | nil =>
      intro i
      refine ⟨by simp [identRunsGo], ?_⟩
      intro st rev p hp
      simp [identRunsGo] at hp
      left
      rw [hp]
  | cons c rest ih =>
      intro i
      by_cases hc : isIdentChar c
      · refine ⟨?_, ?_⟩
        · intro p hp
          simp only [identRunsGo, hc, if_true] at hp
          rcases (ih (i + 1)).2 i [c] p hp with h | h <;> omega
        · intro st rev p hp
          simp only [identRunsGo, hc, if_true] at hp
          rcases (ih (i + 1)).2 st (c :: rev) p hp with h | h
          · exact Or.inl h
          · exact Or.inr (by omega)
      · refine ⟨?_, ?_⟩
        · intro p hp
          simp only [identRunsGo, hc, if_false, Bool.false_eq_true] at hp
          have := (ih (i + 1)).1 p hp
          omega
        · intro st rev p hp
          simp only [identRunsGo, hc, if_false, Bool.false_eq_true,
            List.mem_cons] at hp
          rcases hp with rfl | hp
          · exact Or.inl rfl
          · have := (ih (i + 1)).1 p hp
            exact Or.inr (by omega)

theorem identRunsGo_sep (cs : List Char) : ∀ i : Nat,
    (identRunsGo cs i none).Pairwise runSep ∧
    ∀ st rev, st + rev.length = i →
      (identRunsGo cs i (some (st, rev))).Pairwise runSep := by
  induction cs with
  | nil =>
      intro i
      exact ⟨by simp [identRunsGo], fun st rev _ => by simp [identRunsGo]⟩
  | cons c rest ih =>
      intro i
      by_cases hc : isIdentChar c
      · refine ⟨?_, ?_⟩
        · simp only [identRunsGo, hc, if_true]
          exact (ih (i + 1)).2 i [c] (by simp)
        · intro st rev hinv
          simp only [identRunsGo, hc, if_true]
          exact (ih (i + 1)).2 st (c :: rev) (by simp; omega)
      · refine ⟨?_, ?_⟩
        · simp only [identRunsGo, hc, if_false, Bool.false_eq_true]
          exact (ih (i + 1)).1
        · intro st rev hinv
          simp only [identRunsGo, hc, if_false, Bool.false_eq_true]
          refine List.Pairwise.cons ?_ ((ih (i + 1)).1)
          intro p hp
          have := (identRunsGo_ge rest (i + 1)).1 p hp
          simp only [runSep, List.length_reverse]
          omega

theorem identRuns_pairwise (text : List Char) :
    (identRuns text).Pairwise runSep :=
  (identRunsGo_sep text 0).1

/-- On a separated run list, the exec loop (which skips a containing run
whose handler yields nothing) agrees with "find the unique containing run,
then run the handler": no two distinct runs can both contain the offset. -/
theorem findSome_eq_find_bind {β : Type} (off : Nat)
    (g : Nat × List Char → Option β) :
    ∀ l : List (Nat × List Char), l.Pairwise runSep →
      (l.findSome? fun p =>
        if p.1 ≤ off ∧ off ≤ p.1 + p.2.length then g p else none) =
      (l.find? fun p => decide (p.1 ≤ off ∧ off ≤ p.1 + p.2.length)).bind g := by
  intro l
  induction l with
  | nil => simp
  | cons p rest ih =>
      intro hpw
      rcases List.pairwise_cons.mp hpw with ⟨hsep, htail⟩
      by_cases hp : p.1 ≤ off ∧ off ≤ p.1 + p.2.length
      · cases hg : g p with
        | some v => simp [List.findSome?_cons, List.find?_cons, hp, hg]
        | none =>
            have hrest : (rest.findSome? fun p =>
                if p.1 ≤ off ∧ off ≤ p.1 + p.2.length then g p else none) = none := by
              rw [List.findSome?_eq_none_iff]
              intro q hq
              have hs := hsep q hq
              simp only [runSep] at hs
              rw [if_neg]
              intro hcq
              omega
            simp [List.findSome?_cons, List.find?_cons, hp, hg, hrest]
      · simp only [List.findSome?_cons, List.find?_cons]
        rw [if_neg hp]
        have hd : decide (p.1 ≤ off ∧ off ≤ p.1 + p.2.length) = false := by
          simpa using hp
        rw [hd]
        exact ih htail

/-- The unique identifier run whose inclusive span contains the offset, if
any: the claim's "maximal identifier-character run containing the offset". -/
def containingRun (text : List Char) (off : Nat) : Option (Nat × List Char) :=
  (identRuns text).find? fun p => decide (p.1 ≤ off ∧ off ≤ p.1 + p.2.length)

/-- C7: a definition request returns a result if and only if the maximal
identifier run containing the offset resolves (locals first, then catalog,
and only when a Program is cached) to a symbol with declaration line > 0,
and then the result is the span from `(line − 1, column − 1)` of the
identifier's length in the same document.  A catalog symbol has line 0 and
therefore never yields a result. -/
theorem claim_C7_definition (catalog : List SymbolInfo) (cache : Option Program)
    (uri : String) (text : List Char) (pos : Position) :
    (onDefinition catalog cache uri text pos =
      (containingRun text (offsetAt text pos)).bind fun ir =>
        (getSymbolAtPosition catalog cache (String.mk ir.2)).bind fun symbol =>
          if 0 < symbol.line then
            some { uri := uri, startLine := symbol.line - 1,
                   startChar := symbol.column - 1, endLine := symbol.line - 1,
                   endChar := (symbol.column - 1) + ir.2.length }
          else none)
    ∧ ((onDefinition catalog cache uri text pos).isSome ↔
        ∃ ir symbol, containingRun text (offsetAt text pos) = some ir ∧
          getSymbolAtPosition catalog cache (String.mk ir.2) = some symbol ∧
          0 < symbol.line) := by
  have hmain : onDefinition catalog cache uri text pos =
      (containingRun text (offsetAt text pos)).bind fun ir =>
        (getSymbolAtPosition catalog cache (String.mk ir.2)).bind fun symbol =>
          if 0 < symbol.line then
            some { uri := uri, startLine := symbol.line - 1,
                   startChar := symbol.column - 1, endLine := symbol.line - 1,
                   endChar := (symbol.column - 1) + ir.2.length }
          else none := by
    simp only [onDefinition, containingRun]
    rw [← findSome_eq_find_bind (offsetAt text pos) _ _ (identRuns_pairwise text)]
    congr 1
    funext ir
    by_cases hc : ir.1 ≤ offsetAt text pos ∧ offsetAt text pos ≤ ir.1 + ir.2.length
    · simp only [hc, if_true]
      cases getSymbolAtPosition catalog cache (String.mk ir.2) <;> rfl
    · simp [hc]
  refine ⟨hmain, ?_⟩
  rw [hmain]
  cases h1 : containingRun text (offsetAt text pos) with
  | none => simp
  | some ir =>
      cases h2 : getSymbolAtPosition catalog cache (String.mk ir.2) with
      | none => simp [h2]
      | some symbol =>
          by_cases h3 : 0 < symbol.line <;> simp [h2, h3]

/-- The program `let score = 1;` (declaration at line 1, column 5). -/
def progC7 : Program :=
  ⟨[Stmt.VarDeclaration false "score" (some Expr.NumericLiteral) 1 5]⟩

/-- A catalog entry named `score` (line 0, as every global). -/
def scoreGlobal : SymbolInfo :=
  { name := "score", kind := CompletionItemKind.variableKind,
    detail := "(global)", line := 0, column := 0 }

/-- Witness for C7: definition on `score` inside that document yields the
span (0, 4)–(0, 9); and against an empty local program the same word, now
resolving only to a line-0 catalog entry, yields nothing. -/
theorem claim_C7_witness :
    onDefinition [] (some progC7) "file:///a.cursor" ("score").data ⟨0, 2⟩ =
      some { uri := "file:///a.cursor", startLine := 0, startChar := 4,
             endLine := 0, endChar := 9 }
    ∧ onDefinition [scoreGlobal] (some ⟨[]⟩)
        "file:///a.cursor" ("score").data ⟨0, 2⟩ = none := by
  constructor
  · rw [(claim_C7_definition [] (some progC7) "file:///a.cursor"
      ("score").data ⟨0, 2⟩).1]
    have hrun : containingRun ("score").data (offsetAt ("score").data ⟨0, 2⟩) =
        some (0, ("score").data) := by decide
    rw [hrun]
    simp [getSymbolAtPosition, getSymbolsInProgram, progC7, traverse, typeHint,
      varMembers]
  · rw [(claim_C7_definition [scoreGlobal] (some ⟨[]⟩) "file:///a.cursor"
      ("score").data ⟨0, 2⟩).1]
    have hrun : containingRun ("score").data (offsetAt ("score").data ⟨0, 2⟩) =
        some (0, ("score").data) := by decide
    rw [hrun]
    simp [getSymbolAtPosition, getSymbolsInProgram, traverse, scoreGlobal]

/-! ## Signature help (onSignatureHelp) -/

/-- `textBefore.lastIndexOf("(")`. -/
def lastParenIndex (s : List Char) : Option Nat :=
  ((s.enum.filter fun p => p.2 == '(').getLast?).map fun p => p.1

/-- `textBefore.slice(0, openParenIndex).match(/([a-zA-Z0-9_$]+(\.[a-zA-Z0-9_$]+)?)\s*$/)`:
strip trailing whitespace, then take the trailing maximal identifier run
(failing if empty); if a dot and a second non-empty identifier run
immediately precede, the capture is `run2.run1`, else just `run1`.  On
`a.b.c` this captures `b.c` — the leftmost start at which the whole
anchored pattern matches, exactly as the regex engine backtracks. -/
def funcMatchGroup (head : List Char) : Option String :=
  let t := head.reverse.dropWhile isJsWhite
  let r1 := t.takeWhile isIdentChar
  if r1.isEmpty then none
  else
    match t.drop r1.length with
    | '.' :: rest2 =>
        let r2 := rest2.takeWhile isIdentChar
        if r2.isEmpty then some (String.mk r1.reverse)
        else some (String.mk (r2.reverse ++ '.' :: r1.reverse))
    | _ => some (String.mk r1.reverse)

/-- `fullName.split(".")`. -/
def splitOnDot : List Char → List (List Char)
  | [] => [[]]
  | '.' :: rest => [] :: splitOnDot rest
  | c :: rest =>
      match splitOnDot rest with
      | [] => [[c]]
      | g :: gs => (c :: g) :: gs

/-- `paramMatch[1].split(",")`. -/
def splitOnComma : List Char → List (List Char)
  | [] => [[]]
  | ',' :: rest => [] :: splitOnComma rest
  | c :: rest =>
      match splitOnComma rest with
      | [] => [[c]]
      | g :: gs => (c :: g) :: gs

/-- Resolution of the call target: a dotted name resolves the object (via
getSymbolAtPosition, i.e. locals then catalog, requiring a cached Program)
and then the member by name; a plain name resolves directly.  Only `detail`
and `documentation` of the result are used downstream, so the
`SymbolInfo | SymbolMember` union is modelled as that pair. -/
def sigResolve (catalog : List SymbolInfo) (cache : Option Program)
    (fullName : String) : Option (String × Option String) :=
  if fullName.data.contains '.' then
    let parts := splitOnDot fullName.data
    let objName := String.mk (parts.getD 0 [])
    let propName := String.mk (parts.getD 1 [])
    match getSymbolAtPosition catalog cache objName with
    | some obj =>
        match obj.members with
        | some ms =>
            (ms.find? fun m => m.name == propName).map fun m => (m.detail, m.docs)
        | none => none
    | none => none
  else
    (getSymbolAtPosition catalog cache fullName).map fun s => (s.detail, s.docs)

/-- `symbol.detail.match(/\(([^)]*)\)/)`: the capture of the leftmost match —
the text between the first `(` that is followed by some `)` and the first
`)` after it. -/
def paramGroup : List Char → Option (List Char)
  | [] => none
  | c :: rest =>
      if c = '(' then
        let grp := rest.takeWhile fun ch => ch ≠ ')'
        match rest.drop grp.length with
        | ')' :: _ => some grp
        | _ => paramGroup rest
      else paramGroup rest

theorem contains_of_paramGroup_some :
    ∀ (l : List Char) {g : List Char}, paramGroup l = some g →
      l.contains '(' = true := by
  intro l
  induction l with
  | nil => intro g h; simp [paramGroup] at h
  | cons c rest ih =>
      intro g h
      by_cases hc : c = '('
      · subst hc
        simp [List.contains_cons]
      · simp only [paramGroup] at h
        rw [if_neg hc] at h
        rcases hh : paramGroup rest with - | g2
        · rw [hh] at h; exact absurd h (by simp)
        · simp only [List.contains_cons, Bool.or_eq_true]
          right
          simpa using ih hh

/-- The signature-help result: the one signature (its label and
documentation), the parameter labels, and the active parameter index. -/
structure SignatureHelpResult where
  label : String
  docs : Option String := none
  parameters : List String
  activeSignature : Nat := 0
  activeParameter : Nat
deriving DecidableEq, Repr

/-- `connection.onSignatureHelp`: plain (non-depth-aware) backward scan for
the last `(` before the offset, trailing-identifier extraction, resolution,
then — if the resolved detail contains a `(` — parameter labels from the
first parenthesized group of the detail (none when the group is empty,
because the empty capture is falsy in JavaScript) and an active parameter
index counting the commas from that `(` to the offset (also not
depth-aware). -/
def onSignatureHelp (catalog : List SymbolInfo) (cache : Option Program)
    (text : List Char) (pos : Position) : Option SignatureHelpResult :=
  let offset := offsetAt text pos
  let textBefore := text.take offset
  match lastParenIndex textBefore with
  | none => none
  | some openParenIndex =>
      match funcMatchGroup (textBefore.take openParenIndex) with
      | none => none
      | some fullName =>
          match sigResolve catalog cache fullName with
          | none => none
          | some (detail, doc) =>
              if detail.data.contains '(' then
                let parameters :=
                  match paramGroup detail.data with
                  | some grp =>
                      if grp.isEmpty then []
                      else (splitOnComma grp).map fun p => String.mk (jsTrim p)
                  | none => []
                some { label := detail, docs := doc, parameters := parameters,
                       activeParameter := (textBefore.drop openParenIndex).count ',' }
              else none

/-- General evaluation of onSignatureHelp under the hypotheses that the
backward paren scan, the identifier extraction, the resolution and the
parenthesized-group match all succeed. -/
theorem onSignatureHelp_spec (catalog : List SymbolInfo) (cache : Option Program)
    (text : List Char) (pos : Position) (k : Nat) (fullName : String)
    (detail : String) (doc : Option String) (grp : List Char)
    (h1 : lastParenIndex (text.take (offsetAt text pos)) = some k)
    (h2 : funcMatchGroup ((text.take (offsetAt text pos)).take k) = some fullName)
    (h3 : sigResolve catalog cache fullName = some (detail, doc))
    (h4 : paramGroup detail.data = some grp) :
    onSignatureHelp catalog cache text pos =
      some { label := detail, docs := doc,
             parameters := if grp.isEmpty then []
               else (splitOnComma grp).map fun p => String.mk (jsTrim p),
             activeParameter := ((text.take (offsetAt text pos)).drop k).count ',' } := by
  have hc : detail.data.contains '(' = true :=
    contains_of_paramGroup_some detail.data h4
  unfold onSignatureHelp
  simp only [h1, h2, h3, hc, if_true, h4]

/-- A catalog entry whose detail has an empty parenthesized list. -/
def fnFSymbol : SymbolInfo :=
  { name := "f", kind := CompletionItemKind.functionKind,
    detail := "fn f()", line := 0, column := 0 }

/-- The parameter labels C6 prescribes: split the parenthesized substring of
the detail on commas and trim each piece. -/
def claimC6Labels (detail : String) : Option (List String) :=
  (paramGroup detail.data).map fun grp =>
    (splitOnComma grp).map fun p => String.mk (jsTrim p)

/-- C6 (counterexample): on `f(` where `f` resolves with detail `fn f()`,
the detail does contain a parenthesized substring (the empty one) whose
comma-split-and-trim is `[""]`, yet the engine returns an empty label list —
the empty capture is falsy in JavaScript, so the split never runs.  The
claim's unconditional "split that substring on commas" therefore fails
here. -/
theorem claim_C6_counterexample :
    ((onSignatureHelp [fnFSymbol] (some ⟨[]⟩) ("f(").data ⟨0, 2⟩).map
        fun r => r.parameters) = some ([] : List String)
    ∧ claimC6Labels "fn f()" = some [""]
    ∧ ([""] : List String) ≠ ([] : List String) := by
  refine ⟨?_, by decide, by decide⟩
  rw [onSignatureHelp_spec [fnFSymbol] (some ⟨[]⟩) (("f(").data) ⟨0, 2⟩ 1
    "f" "fn f()" none [] (by decide) (by decide) ?_ (by decide)]
  · decide
  · simp only [sigResolve]
    rw [if_neg (by decide)]
    simp [getSymbolAtPosition, getSymbolsInProgram, traverse, fnFSymbol]

/-- C6 (amended): for every signature-help request on which the plain
backward scan finds a `(`, the trailing optionally single-dotted identifier
resolves, and the resolved detail contains a parenthesized substring, the
engine returns the signature whose parameter labels are obtained by
splitting that substring on commas and trimming — except that an empty
substring yields an empty label list — and whose active parameter index is
the number of commas between the matched `(` and the offset. -/
theorem claim_C6_amended (catalog : List SymbolInfo) (cache : Option Program)
    (text : List Char) (pos : Position) (k : Nat) (fullName : String)
    (detail : String) (doc : Option String) (grp : List Char)
    (h1 : lastParenIndex (text.take (offsetAt text pos)) = some k)
    (h2 : funcMatchGroup ((text.take (offsetAt text pos)).take k) = some fullName)
    (h3 : sigResolve catalog cache fullName = some (detail, doc))
    (h4 : paramGroup detail.data = some grp) :
    onSignatureHelp catalog cache text pos =
      some { label := detail, docs := doc,
             parameters := if grp.isEmpty then []
               else (splitOnComma grp).map fun p => String.mk (jsTrim p),
             activeParameter := ((text.take (offsetAt text pos)).drop k).count ',' } :=
  onSignatureHelp_spec catalog cache text pos k fullName detail doc grp h1 h2 h3 h4

/-- The `add` symbol of the specification's signature-help example. -/
def addSymbol : SymbolInfo :=
  { name := "add", kind := CompletionItemKind.functionKind,
    detail := "fn add(a, b)", line := 0, column := 0 }

/-- Witness for C6 (amended): signature help on `add(1, ` where `add`'s
detail is `fn add(a, b)` returns parameters `[a, b]` and activeParameter 1. -/
theorem claim_C6_witness :
    onSignatureHelp [addSymbol] (some ⟨[]⟩) ("add(1, ").data ⟨0, 7⟩ =
      some { label := "fn add(a, b)", docs := none,
             parameters := ["a", "b"], activeParameter := 1 } := by
  rw [claim_C6_amended [addSymbol] (some ⟨[]⟩) (("add(1, ").data) ⟨0, 7⟩ 3
    "add" "fn add(a, b)" none ("a, b").data (by decide) (by decide) ?_ (by decide)]
  · decide
  · simp only [sigResolve]
    rw [if_neg (by decide)]
    simp [getSymbolAtPosition, getSymbolsInProgram, traverse, addSymbol]

/-- C10: without a cached successfully-parsed Program, Hover and
SignatureHelp return no result at every position — even when the identifier
at the position names a catalog symbol, since getSymbolAtPosition consults
nothing without a Program — whereas Completion at the same position (outside
a comment, not after a dot) still returns the full global catalog (one item
per entry, assuming the catalog's names are distinct). -/
theorem claim_C10_no_cached_program (catalog : List SymbolInfo)
    (text : List Char) (pos : Position)
    (hnodup : (catalog.map fun s => s.name).Nodup)
    (hcomment : containsSlashSlash ((text.take (offsetAt text pos)).drop
        (offsetAt text ⟨pos.line, 0⟩)) = false)
    (hdot : dotMatch (text.take (offsetAt text pos)) = none) :
    onHover catalog none text pos = none ∧
    onSignatureHelp catalog none text pos = none ∧
    onCompletion catalog none text pos = catalog.map toItem := by
  refine ⟨rfl, ?_, ?_⟩
  · unfold onSignatureHelp
    cases h1 : lastParenIndex (text.take (offsetAt text pos)) with
    | none => simp [h1]
    | some k =>
        cases h2 : funcMatchGroup ((text.take (offsetAt text pos)).take k) with
        | none => simp [h1, h2]
        | some nm =>
            have h3 : sigResolve catalog none nm = none := by
              unfold sigResolve
              by_cases hd : nm.data.contains '.' = true
              · rw [if_pos hd]; simp [getSymbolAtPosition]
              · rw [if_neg hd]; simp [getSymbolAtPosition]
            simp [h1, h2, h3]
  · unfold onCompletion
    simp only [hcomment, hdot, Bool.false_eq_true, if_false, localSymbolsOf,
      completionGeneral, List.filter_nil, List.append_nil,
      dedupByName_of_nodup catalog hnodup]

/-- Witness for C10 at the document `score` (an identifier that names a
catalog symbol) with no cached Program. -/
theorem claim_C10_witness :
    onHover [scoreGlobal] none ("score").data ⟨0, 2⟩ = none ∧
    onSignatureHelp [scoreGlobal] none ("score").data ⟨0, 2⟩ = none ∧
    onCompletion [scoreGlobal] none ("score").data ⟨0, 2⟩ =
      [{ label := "score", kind := CompletionItemKind.variableKind,
         detail := "(global)", insertTextFormat := 1 }] := by
  have h := claim_C10_no_cached_program [scoreGlobal] ("score").data ⟨0, 2⟩
    (by decide) (by decide) (by decide)
  exact ⟨h.1, h.2.1, h.2.2.trans (by decide)⟩

end CursorVsc
